import Mathlib

/-!
# Retrieval & Grounded-Citation Pipeline — verification development

Shallow embedding of the core of `wnc-proposal-assistant`:
`app/services/retriever.py`, `app/services/citations.py`,
`app/services/postprocess.py` and `app/services/generator.py`.

Python dicts with a fixed key set are modelled as structures; a key that may
be absent or `null` is an `Option`; Python string falsiness (`""`/`None`) is
spelled out at each use site.  Regular-expression passes over text are
embedded as character-list scanners that reproduce `re`'s left-to-right,
non-overlapping matching for the concrete patterns the code uses.
-/

/-- One record of `chunks.jsonl` as read by `retriever.py` (`_CHUNKS[i]`).
`none` models an absent key. -/
structure Chunk where
  doc_id : Option String
  title : Option String
  url : Option String
  date : Option String
  county : Option String
  topics : Option (List String)
  text : Option String
deriving Repr, DecidableEq

instance : Inhabited Chunk := ⟨⟨none, none, none, none, none, none, none⟩⟩

/-- Python `a or b` on an optional string: the default is used when the
value is absent or empty (both falsy). -/
def pyOrS (o : Option String) (d : String) : String :=
  match o with
  | none => d
  | some s => if s = "" then d else s

/-- One context dict produced by `retrieve` (lines 207-217 of
`retriever.py`): every key present, `None` values modelled as `none`. -/
structure OutHit where
  doc_id : String
  title : String
  url : Option String
  source : String
  date : Option String
  county : Option String
  topics : List String
  text : String
deriving Repr, DecidableEq

instance : Inhabited OutHit := ⟨⟨"", "", none, "", none, none, [], ""⟩⟩

/-- The dict built for each ranked index in `retrieve`:
`"url": c.get("url") or None` turns `""` into `None`, `"date"`/`"county"`
stay `None` when falsy, and the remaining fields fall back to `""`,
`"Source"` or `[]` exactly as in the source. -/
def mkOutHit (c : Chunk) : OutHit :=
  { doc_id := pyOrS c.doc_id ""
    title := pyOrS c.title (pyOrS c.doc_id "Source")
    url := match c.url with
           | none => none
           | some s => if s = "" then none else some s
    source := pyOrS c.url ""
    date := match c.date with
            | none => none
            | some s => if s = "" then none else some s
    county := match c.county with
              | none => none
              | some s => if s = "" then none else some s
    topics := c.topics.getD []
    text := pyOrS c.text "" }

/-- Loop body of `_dedupe_adjacent_by_doc` (retriever.py lines 8-16).
`prev` is `prev_doc`; the initial Python value `None` and a stored `""`
are observationally identical (both falsy, and the guard first requires a
truthy current `doc`), so `prev` is carried as a plain string. -/
def dedupeGo (prev : String) : List OutHit → List OutHit
  | [] => []
  | h :: rest =>
    if h.doc_id ≠ "" ∧ h.doc_id = prev then dedupeGo prev rest
    else h :: dedupeGo h.doc_id rest

/-- `_dedupe_adjacent_by_doc(hits)`: drop a hit when its `doc_id` is truthy
and equal to the `doc_id` of the last kept hit. -/
def dedupeAdjacentByDoc (hits : List OutHit) : List OutHit :=
  dedupeGo "" hits

/-- Rendering of claim C2's own words, without regard to empty ids: drop a
hit whenever its `doc_id` equals the `doc_id` of the immediately preceding
not-yet-dropped hit.  Used only to compare the claim against the source. -/
def specC2DropGo (prev : Option String) : List OutHit → List OutHit
  | [] => []
  | h :: rest =>
    if some h.doc_id = prev then specC2DropGo prev rest
    else h :: specC2DropGo (some h.doc_id) rest

/-- Claim C2 as written (spec-side reference definition). -/
def specC2Drop (hits : List OutHit) : List OutHit :=
  specC2DropGo none hits

/-- Amended claim C2 (spec-side reference definition): drop a hit exactly
when its `doc_id` is non-empty and equals the `doc_id` of the immediately
preceding not-yet-dropped hit. -/
def specC2AmendedGo (prev : Option String) : List OutHit → List OutHit
  | [] => []
  | h :: rest =>
    if h.doc_id ≠ "" ∧ some h.doc_id = prev then specC2AmendedGo prev rest
    else h :: specC2AmendedGo (some h.doc_id) rest

/-- Amended claim C2, whole-list form. -/
def specC2Amended (hits : List OutHit) : List OutHit :=
  specC2AmendedGo none hits

/-- A hit with a given `doc_id` and no other payload, for concrete tests. -/
def hitD (d : String) : OutHit :=
  { doc_id := d, title := "t", url := none, source := "", date := none,
    county := none, topics := [], text := "" }

theorem specC2AmendedGo_eq_dedupeGo (hits : List OutHit) :
    ∀ p : String, specC2AmendedGo (some p) hits = dedupeGo p hits := by
  induction hits with
  | nil => intro p; rfl
  | cons h rest ih =>
      intro p
      by_cases hc : h.doc_id ≠ "" ∧ h.doc_id = p
      · have hc' : h.doc_id ≠ "" ∧ some h.doc_id = some p := ⟨hc.1, by rw [hc.2]⟩
        simp only [specC2AmendedGo, dedupeGo, if_pos hc, if_pos hc']
        exact ih p
      · have hc' : ¬ (h.doc_id ≠ "" ∧ some h.doc_id = some p) := by
          intro hx
          exact hc ⟨hx.1, Option.some.inj hx.2⟩
        simp only [specC2AmendedGo, dedupeGo, if_neg hc, if_neg hc']
        exact congrArg (h :: ·) (ih h.doc_id)

/-- Claim C2 — counterexample.  For two consecutive hits whose `doc_id` is
the empty string, the claim as stated predicts the second is dropped (its
`document_id` equals that of the preceding kept hit), but
`_dedupe_adjacent_by_doc` keeps both: the guard `doc and doc == prev_doc`
requires a truthy `doc_id`. -/
theorem c2_dedup_counterexample :
    dedupeAdjacentByDoc [hitD "", hitD ""] = [hitD "", hitD ""] ∧
    specC2Drop [hitD "", hitD ""] = [hitD ""] ∧
    dedupeAdjacentByDoc [hitD "", hitD ""] ≠ specC2Drop [hitD "", hitD ""] := by
  refine ⟨by decide, by decide, by decide⟩

/-- Claim C2 (amended): the adjacency-dedup step drops exactly those hits
whose `doc_id` is non-empty and equals the `doc_id` of the immediately
preceding not-yet-dropped hit; non-adjacent repeats are kept, and on hits
over documents `[docA, docA, docB, docA]` it yields `[docA, docB, docA]`. -/
theorem c2_dedup_amended :
    (∀ hits : List OutHit, dedupeAdjacentByDoc hits = specC2Amended hits) ∧
    dedupeAdjacentByDoc [hitD "docA", hitD "docA", hitD "docB", hitD "docA"] =
      [hitD "docA", hitD "docB", hitD "docA"] := by
  constructor
  · intro hits
    cases hits with
    | nil => rfl
    | cons h rest =>
        show dedupeGo "" (h :: rest) = specC2AmendedGo none (h :: rest)
        have hgo : ¬ (h.doc_id ≠ "" ∧ h.doc_id = "") := by
          intro hx; exact hx.1 hx.2
        have hsp : ¬ (h.doc_id ≠ "" ∧ some h.doc_id = none) := by
          intro hx; exact Option.noConfusion hx.2
        simp only [dedupeGo, specC2AmendedGo, if_neg hgo, if_neg hsp]
        exact congrArg (h :: ·) (specC2AmendedGo_eq_dedupeGo rest h.doc_id).symm
  · decide

/-- Claim C10: the dedup step never drops a hit whose `doc_id` is empty
(the count of empty-`doc_id` hits is preserved, so consecutive such hits
are all kept), and an empty-`doc_id` hit resets the comparison: whatever
follows it is kept as well. -/
theorem c10_dedup_empty_doc :
    (∀ (p : String) (hits : List OutHit),
      (dedupeGo p hits).countP (fun x => x.doc_id = "") =
        hits.countP (fun x => x.doc_id = "")) ∧
    (∀ (p : String) (e h : OutHit) (rest : List OutHit), e.doc_id = "" →
      dedupeGo p (e :: h :: rest) = e :: h :: dedupeGo h.doc_id rest) := by
  constructor
  · intro p hits
    induction hits generalizing p with
    | nil => rfl
    | cons h rest ih =>
        by_cases hc : h.doc_id ≠ "" ∧ h.doc_id = p
        · have hne : (fun x : OutHit => decide (x.doc_id = "")) h = false := by
            simp [hc.1]
          simp only [dedupeGo, if_pos hc, List.countP_cons, hne]
          simp [ih p]
        · simp only [dedupeGo, if_neg hc, List.countP_cons]
          simp [ih h.doc_id]
  · intro p e h rest he
    have h1 : ¬ (e.doc_id ≠ "" ∧ e.doc_id = p) := by
      intro hx; exact hx.1 he
    have h2 : ¬ (h.doc_id ≠ "" ∧ h.doc_id = e.doc_id) := by
      intro hx; rw [he] at hx; exact hx.1 hx.2
    simp only [dedupeGo, if_neg h1, if_neg h2]

/-- Claim C10 — witness: both conjuncts at a concrete input with two
consecutive hits lacking a `doc_id`. -/
theorem c10_dedup_empty_doc_witness :
    (dedupeGo "x" [hitD "", hitD ""]).countP (fun x => x.doc_id = "") =
      ([hitD "", hitD ""] : List OutHit).countP (fun x => x.doc_id = "") ∧
    dedupeGo "x" [hitD "", hitD ""] = hitD "" :: hitD "" :: dedupeGo "" [] := by
  exact ⟨c10_dedup_empty_doc.1 "x" [hitD "", hitD ""],
    c10_dedup_empty_doc.2 "x" (hitD "") (hitD "") [] (by decide)⟩

/-- A `SourceEntry` as appended by `build_sources` (citations.py lines
32-39).  The chunks the pipeline feeds in are the flat context dicts of
`retrieve`, which carry no `meta` sub-dict, so every `_get(ch,"meta",...)`
is `None` and each field falls through to the flat key via `or`. -/
structure SourceEntry where
  n : Nat
  title : String
  url : Option String
  date : Option String
  county : Option String
  topics : List String
deriving Repr, DecidableEq

/-- Document key of `build_sources` (citations.py lines 26-29): the truthy
`doc_id`, else the synthetic `f"{url}|{title}"` fallback.  A `None` url is
interpolated by the f-string as the literal `"None"`. -/
def docKey (h : OutHit) : String :=
  if h.doc_id ≠ "" then h.doc_id
  else (match h.url with | none => "None" | some s => s) ++ "|" ++ h.title

/-- The entry appended on first encounter of a document. -/
def mkEntry (n : Nat) (h : OutHit) : SourceEntry :=
  ⟨n, h.title, h.url, h.date, h.county, h.topics⟩

/-- Association-list lookup modelling `doc in by_doc` / `by_doc[doc]`
(keys are unique, insertion order preserved as Python dicts do). -/
def lookupA (assoc : List (String × Nat)) (k : String) : Option Nat :=
  match assoc with
  | [] => none
  | (k', v) :: rest => if k' = k then some v else lookupA rest k

/-- Keys of the association list. -/
def keysOf (assoc : List (String × Nat)) : List String :=
  assoc.map (·.1)

/-- Loop of `build_sources` (citations.py lines 25-40), with the mutable
`by_doc`, `ordered`, `n` threaded as accumulators. -/
def buildGo : List OutHit → List (String × Nat) → List SourceEntry → Nat →
    List (String × Nat) × List SourceEntry
  | [], assoc, entries, _ => (assoc, entries)
  | h :: t, assoc, entries, n =>
    match lookupA assoc (docKey h) with
    | some _ => buildGo t assoc entries n
    | none => buildGo t (assoc ++ [(docKey h, n)]) (entries ++ [mkEntry n h]) (n + 1)

/-- `build_sources(chunks)`: returns `(map_doc_to_n, sources)`. -/
def buildSources (chunks : List OutHit) : List (String × Nat) × List SourceEntry :=
  buildGo chunks [] [] 1

/-- First-occurrence dedup by key, relative to an already-seen key list:
keeps the first chunk of each not-yet-seen document key, in order. -/
def freshDedup (seen : List String) : List OutHit → List OutHit
  | [] => []
  | h :: t =>
    if docKey h ∈ seen then freshDedup seen t
    else h :: freshDedup (docKey h :: seen) t

/-- The marker map the claim describes: document keys of the first-seen
chunks, numbered consecutively from `n`. -/
def enumAssocFrom (n : Nat) : List OutHit → List (String × Nat)
  | [] => []
  | h :: t => (docKey h, n) :: enumAssocFrom (n + 1) t

/-- The source list the claim describes: one entry per first-seen chunk,
numbered consecutively from `n`. -/
def enumEntriesFrom (n : Nat) : List OutHit → List SourceEntry
  | [] => []
  | h :: t => mkEntry n h :: enumEntriesFrom (n + 1) t

theorem lookupA_eq_none_iff (assoc : List (String × Nat)) (k : String) :
    lookupA assoc k = none ↔ k ∉ keysOf assoc := by
  induction assoc with
  | nil => simp [lookupA, keysOf]
  | cons p rest ih =>
      by_cases h : p.1 = k
      · subst h
        simp [lookupA, keysOf]
      · simp only [lookupA, if_neg h, keysOf, List.map_cons, List.mem_cons]
        rw [ih]
        constructor
        · intro hn hk
          rcases hk with hk | hk
          · exact h hk.symm
          · exact hn hk
        · intro hn
          exact fun hk => hn (Or.inr hk)

theorem freshDedup_congr (s₁ s₂ : List String) (hs : ∀ x, x ∈ s₁ ↔ x ∈ s₂) :
    ∀ l : List OutHit, freshDedup s₁ l = freshDedup s₂ l := by
  intro l
  induction l generalizing s₁ s₂ with
  | nil => rfl
  | cons h t ih =>
      by_cases hm : docKey h ∈ s₁
      · rw [freshDedup, if_pos hm, freshDedup, if_pos ((hs _).1 hm)]
        exact ih s₁ s₂ hs
      · rw [freshDedup, if_neg hm, freshDedup, if_neg (fun hx => hm ((hs _).2 hx))]
        refine congrArg (h :: ·) (ih _ _ ?_)
        intro x
        simp only [List.mem_cons]
        exact or_congr Iff.rfl (hs x)

theorem buildGo_spec (hits : List OutHit) :
    ∀ (assoc : List (String × Nat)) (entries : List SourceEntry) (n : Nat),
      buildGo hits assoc entries n =
        (assoc ++ enumAssocFrom n (freshDedup (keysOf assoc) hits),
         entries ++ enumEntriesFrom n (freshDedup (keysOf assoc) hits)) := by
  induction hits with
  | nil => intro assoc entries n; simp [buildGo, freshDedup, enumAssocFrom, enumEntriesFrom]
  | cons h t ih =>
      intro assoc entries n
      by_cases hm : docKey h ∈ keysOf assoc
      · have hl : lookupA assoc (docKey h) ≠ none :=
          fun hx => ((lookupA_eq_none_iff assoc (docKey h)).mp hx) hm
        rcases Option.ne_none_iff_exists'.mp hl with ⟨v, hv⟩
        rw [buildGo, hv, freshDedup, if_pos hm]
        exact ih assoc entries n
      · have hl : lookupA assoc (docKey h) = none := by
          rw [lookupA_eq_none_iff]; exact hm
        rw [buildGo, hl, freshDedup, if_neg hm]
        rw [ih (assoc ++ [(docKey h, n)]) (entries ++ [mkEntry n h]) (n + 1)]
        have hkeys : ∀ x, x ∈ keysOf (assoc ++ [(docKey h, n)]) ↔
            x ∈ docKey h :: keysOf assoc := by
          intro x
          simp [keysOf, List.mem_append, List.mem_cons, or_comm]
        rw [freshDedup_congr _ _ hkeys t]
        simp [enumAssocFrom, enumEntriesFrom, List.append_assoc]

/-- Marker numbers of `enumEntriesFrom` are consecutive from `n`. -/
theorem enumEntriesFrom_map_n (l : List OutHit) :
    ∀ n, (enumEntriesFrom n l).map SourceEntry.n = List.range' n l.length := by
  induction l with
  | nil => intro n; rfl
  | cons h t ih =>
      intro n
      simp only [enumEntriesFrom, List.map_cons, List.length_cons, List.range']
      rw [ih (n + 1)]
      simp [mkEntry]

/-- Key-function congruence: when every chunk's `doc_id` is non-empty the
synthetic fallback key is never used. -/
theorem docKey_eq_doc_id {h : OutHit} (hne : h.doc_id ≠ "") :
    docKey h = h.doc_id := by
  rw [docKey, if_pos hne]

/-- First-occurrence dedup relative to a seen list (spec-side words:
keep each value the first time it appears, skip later repeats). -/
def fdGo {α : Type} [DecidableEq α] (seen : List α) : List α → List α
  | [] => []
  | d :: t => if d ∈ seen then fdGo seen t else d :: fdGo (d :: seen) t

/-- First-occurrence dedup of a list. -/
def firstDedup {α : Type} [DecidableEq α] (l : List α) : List α :=
  fdGo [] l

theorem freshDedup_map_doc_id (hits : List OutHit) :
    ∀ seen : List String, (∀ h ∈ hits, h.doc_id ≠ "") →
      (freshDedup seen hits).map OutHit.doc_id =
        fdGo seen (hits.map OutHit.doc_id) := by
  induction hits with
  | nil => intro seen _; rfl
  | cons h t ih =>
      intro seen hdoc
      have hk : docKey h = h.doc_id := docKey_eq_doc_id (hdoc h (by simp))
      have ht : ∀ x ∈ t, x.doc_id ≠ "" := fun x hx => hdoc x (by simp [hx])
      by_cases hm : h.doc_id ∈ seen
      · simp only [freshDedup, List.map_cons, fdGo, hk, if_pos hm]
        exact ih seen ht
      · simp only [freshDedup, List.map_cons, fdGo, hk, if_neg hm]
        exact congrArg (h.doc_id :: ·) (ih (h.doc_id :: seen) ht)

/-- Claim C6: `build_sources` walks the hits in order, assigns integer
markers starting at 1 in first-encounter order of `document_id`, appends
exactly one `SourceEntry` per distinct document (later hits with a seen
`document_id` resolve to the existing marker, adding nothing), and the
entry numbers are `1..m`.  `freshDedup [] hits` is the sub-list of
first-seen hits in encounter order, so its `doc_id`s are the
first-occurrence dedup of the hit `doc_id`s. -/
theorem c6_citation_builder (hits : List OutHit)
    (hdoc : ∀ h ∈ hits, h.doc_id ≠ "") :
    buildSources hits =
      (enumAssocFrom 1 (freshDedup [] hits),
       enumEntriesFrom 1 (freshDedup [] hits)) ∧
    (freshDedup [] hits).map OutHit.doc_id =
      firstDedup (hits.map OutHit.doc_id) ∧
    (buildSources hits).2.map SourceEntry.n =
      List.range' 1 (freshDedup [] hits).length := by
  have hmain : buildSources hits =
      (enumAssocFrom 1 (freshDedup [] hits),
       enumEntriesFrom 1 (freshDedup [] hits)) := by
    rw [buildSources, buildGo_spec hits [] [] 1]
    simp [keysOf]
  refine ⟨hmain, freshDedup_map_doc_id hits [] hdoc, ?_⟩
  rw [hmain]
  exact enumEntriesFrom_map_n (freshDedup [] hits) 1

/-- Claim C6 — witness: on hits over documents `[docA, docB, docA, docC]`
the builder yields markers `{docA ↦ 1, docB ↦ 2, docC ↦ 3}` and source
order `[docA, docB, docC]`. -/
theorem c6_citation_builder_witness :
    (buildSources [hitD "docA", hitD "docB", hitD "docA", hitD "docC"] =
      (enumAssocFrom 1 (freshDedup [] [hitD "docA", hitD "docB", hitD "docA", hitD "docC"]),
       enumEntriesFrom 1 (freshDedup [] [hitD "docA", hitD "docB", hitD "docA", hitD "docC"])) ∧
     (freshDedup [] [hitD "docA", hitD "docB", hitD "docA", hitD "docC"]).map OutHit.doc_id =
       firstDedup ([hitD "docA", hitD "docB", hitD "docA", hitD "docC"].map OutHit.doc_id) ∧
     (buildSources [hitD "docA", hitD "docB", hitD "docA", hitD "docC"]).2.map SourceEntry.n =
       List.range' 1 (freshDedup [] [hitD "docA", hitD "docB", hitD "docA", hitD "docC"]).length) ∧
    (buildSources [hitD "docA", hitD "docB", hitD "docA", hitD "docC"]).1 =
      [("docA", 1), ("docB", 2), ("docC", 3)] ∧
    (buildSources [hitD "docA", hitD "docB", hitD "docA", hitD "docC"]).2.map SourceEntry.n =
      [1, 2, 3] :=
  ⟨c6_citation_builder [hitD "docA", hitD "docB", hitD "docA", hitD "docC"] (by decide),
   by decide, by decide⟩


/-- The character for one decimal digit, as `str(int)` renders it. -/
def digitChar (d : Nat) : Char :=
  match d with
  | 0 => '0' | 1 => '1' | 2 => '2' | 3 => '3' | 4 => '4'
  | 5 => '5' | 6 => '6' | 7 => '7' | 8 => '8' | _ => '9'

/-- Numeric value of a decimal digit character. -/
def charVal (c : Char) : Nat := c.toNat - 48

/-- `int(ds)` on a non-empty string of decimal digits (as produced by the
regex group `(\d+)`): most-significant first. -/
def numOf (ds : List Char) : Nat :=
  ds.foldl (fun a c => 10 * a + charVal c) 0

/-- Value of a digit list, most-significant first. -/
def numOfNat (l : List Nat) : Nat :=
  l.foldl (fun a d => 10 * a + d) 0

/-- Least-significant-first decimal digits of `n`, with explicit fuel so
that the definition is structural and kernel-reducible. -/
def digitsRev (fuel n : Nat) : List Nat :=
  match fuel with
  | 0 => []
  | f + 1 => if n < 10 then [n] else n % 10 :: digitsRev f (n / 10)

/-- Decimal rendering of `n`, as Python's `str(n)` / `f"[{n}]"` writes it. -/
def digitsOf (n : Nat) : List Char :=
  ((digitsRev (n + 1) n).reverse).map digitChar

theorem charVal_digitChar : ∀ d : Nat, d < 10 → charVal (digitChar d) = d := by
  decide

theorem digitChar_isDigit : ∀ d : Nat, d < 10 → (digitChar d).isDigit = true := by
  decide

theorem digitsRev_lt (fuel : Nat) : ∀ n, ∀ d ∈ digitsRev fuel n, d < 10 := by
  induction fuel with
  | zero => intro n d hd; simp [digitsRev] at hd
  | succ f ih =>
      intro n d hd
      rw [digitsRev] at hd
      by_cases h : n < 10
      · rw [if_pos h] at hd
        simp at hd
        omega
      · rw [if_neg h] at hd
        rcases List.mem_cons.mp hd with h1 | h1
        · subst h1; exact Nat.mod_lt n (by omega)
        · exact ih (n / 10) d h1

theorem digitsRev_ne_nil (fuel n : Nat) : digitsRev (fuel + 1) n ≠ [] := by
  rw [digitsRev]
  by_cases h : n < 10
  · rw [if_pos h]; simp
  · rw [if_neg h]; simp

theorem digitsRev_sound : ∀ fuel n, n < fuel → numOfNat (digitsRev fuel n).reverse = n := by
  intro fuel
  induction fuel with
  | zero => intro n h; omega
  | succ f ih =>
      intro n hn
      rw [digitsRev]
      by_cases h : n < 10
      · rw [if_pos h]
        simp [numOfNat]
      · rw [if_neg h]
        have hstep : n / 10 < n := Nat.div_lt_self (by omega) (by omega)
        have hrec : numOfNat (digitsRev f (n / 10)).reverse = n / 10 :=
          ih (n / 10) (by omega)
        rw [List.reverse_cons, numOfNat, List.foldl_append]
        simp only [List.foldl_cons, List.foldl_nil]
        rw [show List.foldl (fun a d => 10 * a + d) 0 (digitsRev f (n / 10)).reverse
              = n / 10 from hrec]
        omega

theorem numOf_map_digitChar : ∀ (l : List Nat) (a : Nat), (∀ d ∈ l, d < 10) →
    List.foldl (fun a c => 10 * a + charVal c) a (l.map digitChar) =
      List.foldl (fun a d => 10 * a + d) a l := by
  intro l
  induction l with
  | nil => intro a _; rfl
  | cons d t ih =>
      intro a hall
      simp only [List.map_cons, List.foldl_cons]
      rw [charVal_digitChar d (hall d (by simp))]
      exact ih _ (fun x hx => hall x (by simp [hx]))

theorem numOf_digitsOf (n : Nat) : numOf (digitsOf n) = n := by
  rw [digitsOf, numOf, numOf_map_digitChar _ 0
      (fun d hd => digitsRev_lt (n + 1) n d (List.mem_reverse.mp hd))]
  exact digitsRev_sound (n + 1) n (Nat.lt_succ_self n)

theorem digitsOf_ne_nil (n : Nat) : digitsOf n ≠ [] := by
  rw [digitsOf]
  intro h
  have := digitsRev_ne_nil n n
  simp at h
  exact this h

theorem digitsOf_isDigit (n : Nat) : ∀ c ∈ digitsOf n, c.isDigit = true := by
  intro c hc
  rw [digitsOf] at hc
  rcases List.mem_map.mp hc with ⟨d, hd, rfl⟩
  exact digitChar_isDigit d (digitsRev_lt (n + 1) n d (List.mem_reverse.mp hd))

/-- One attempted match of `MARKER_RE = \[(\d+)\]` at the head of the text:
on success, the marker's number and the text after the closing bracket.
`r2.head? = some ']'` spells out the `match r2 with ']' :: r3` step of the
regex (digits must be non-empty and directly followed by `]`). -/
def splitMarker (cs : List Char) : Option (Nat × List Char) :=
  match cs with
  | [] => none
  | c :: rest =>
    if c = '[' then
      let ds := rest.takeWhile Char.isDigit
      let r2 := rest.dropWhile Char.isDigit
      if ds = [] then none
      else if r2.head? = some ']' then some (numOf ds, r2.tail) else none
    else none

theorem splitMarker_none_of_ne {c : Char} (rest : List Char) (h : c ≠ '[') :
    splitMarker (c :: rest) = none := by
  rw [splitMarker, if_neg h]

theorem splitMarker_some_head {c : Char} {rest : List Char} {p : Nat × List Char}
    (h : splitMarker (c :: rest) = some p) : c = '[' := by
  by_contra hc
  rw [splitMarker_none_of_ne rest hc] at h
  exact Option.noConfusion h

theorem splitMarker_length {cs : List Char} {n : Nat} {r3 : List Char}
    (h : splitMarker cs = some (n, r3)) : r3.length < cs.length := by
  match cs with
  | [] => rw [splitMarker] at h; exact Option.noConfusion h
  | c :: rest =>
    have hc : c = '[' := splitMarker_some_head h
    subst hc
    rw [splitMarker, if_pos rfl] at h
    by_cases h1 : rest.takeWhile Char.isDigit = []
    · rw [if_pos h1] at h; exact Option.noConfusion h
    · rw [if_neg h1] at h
      by_cases h2 : (rest.dropWhile Char.isDigit).head? = some ']'
      · rw [if_pos h2] at h
        have h3 : r3 = (rest.dropWhile Char.isDigit).tail :=
          (Prod.mk.injEq _ _ _ _ ▸ Option.some.inj h).2.symm ▸ rfl
        have h4 : (rest.dropWhile Char.isDigit) ≠ [] := by
          intro hx; rw [hx] at h2; exact Option.noConfusion h2
        have h5 : (rest.dropWhile Char.isDigit).tail.length <
            (rest.dropWhile Char.isDigit).length := by
          cases hdw : rest.dropWhile Char.isDigit with
          | nil => exact absurd hdw h4
          | cons x t => simp
        have h6 : (rest.dropWhile Char.isDigit).length ≤ rest.length :=
          (List.dropWhile_sublist Char.isDigit).length_le
        have h7 : r3 = (rest.dropWhile Char.isDigit).tail := by
          have := Option.some.inj h
          exact congrArg Prod.snd this.symm
        rw [h7]
        simp only [List.length_cons]
        omega
      · rw [if_neg h2] at h; exact Option.noConfusion h

/-- All-satisfying prefix followed by a failing head: `takeWhile` takes
exactly the prefix and `dropWhile` exposes the failing head. -/
theorem takeWhile_all_append {p : Char → Bool} :
    ∀ (l : List Char) (x : Char) (t : List Char), (∀ c ∈ l, p c = true) → p x = false →
      (l ++ x :: t).takeWhile p = l ∧ (l ++ x :: t).dropWhile p = x :: t := by
  intro l
  induction l with
  | nil =>
      intro x t _ hx
      constructor
      · simp [List.takeWhile, hx]
      · simp [List.dropWhile, hx]
  | cons a l' ih =>
      intro x t hall hx
      have ha : p a = true := hall a (by simp)
      have hrest := ih x t (fun c hc => hall c (by simp [hc])) hx
      constructor
      · simp only [List.cons_append, List.takeWhile_cons, ha, if_pos]
        rw [hrest.1]
      · simp only [List.cons_append, List.dropWhile_cons, ha, if_pos]
        rw [hrest.2]

/-- `splitMarker` recognises a rendered marker `[m]` and returns the rest. -/
theorem splitMarker_render (m : Nat) (X : List Char) :
    splitMarker ('[' :: (digitsOf m ++ ']' :: X)) = some (m, X) := by
  have htw := takeWhile_all_append (p := Char.isDigit) (digitsOf m) ']' X
    (digitsOf_isDigit m) (by decide)
  rw [splitMarker, if_pos rfl]
  rw [htw.1, htw.2]
  rw [if_neg (digitsOf_ne_nil m)]
  simp only [List.head?_cons, if_pos rfl, List.tail_cons]
  rw [numOf_digitsOf]
  simp

/-- `MARKER_RE.findall` over the text: the marker numbers in order of
appearance, with `re`'s left-to-right non-overlapping scan (on a failed
match the scan advances one character).  Fuel keeps the recursion
structural; callers use `findAll`, which supplies sufficient fuel. -/
def findAllF (fuel : Nat) (cs : List Char) : List Nat :=
  match fuel, cs with
  | 0, _ => []
  | _ + 1, [] => []
  | f + 1, c :: rest =>
    match splitMarker (c :: rest) with
    | some (n, r3) => n :: findAllF f r3
    | none => findAllF f rest

/-- `MARKER_RE.findall(text)` mapped through `int`. -/
def findAll (cs : List Char) : List Nat := findAllF cs.length cs

/-- `MARKER_RE.sub(repl, text)` where the replacement writes `[g n]` for a
matched marker `n` (postprocess.py `_renumber`). -/
def subMF (g : Nat → Nat) (fuel : Nat) (cs : List Char) : List Char :=
  match fuel, cs with
  | 0, _ => cs
  | _ + 1, [] => []
  | f + 1, c :: rest =>
    match splitMarker (c :: rest) with
    | some (n, r3) => '[' :: (digitsOf (g n) ++ ']' :: subMF g f r3)
    | none => c :: subMF g f rest

/-- Wrapper with sufficient fuel. -/
def subM (g : Nat → Nat) (cs : List Char) : List Char := subMF g cs.length cs

theorem findAllF_nil (fuel : Nat) : findAllF fuel [] = [] := by
  cases fuel with
  | zero => rfl
  | succ f => rfl

theorem subMF_nil (g : Nat → Nat) (fuel : Nat) : subMF g fuel [] = [] := by
  cases fuel with
  | zero => rfl
  | succ f => rfl

theorem findAllF_congr : ∀ (f1 f2 : Nat) (cs : List Char),
    cs.length ≤ f1 → cs.length ≤ f2 → findAllF f1 cs = findAllF f2 cs := by
  intro f1
  induction f1 with
  | zero =>
      intro f2 cs h1 _
      have : cs = [] := List.length_eq_zero.mp (Nat.le_zero.mp h1)
      subst this
      rw [findAllF_nil, findAllF_nil]
  | succ f ih =>
      intro f2 cs h1 h2
      cases cs with
      | nil => rw [findAllF_nil, findAllF_nil]
      | cons c rest =>
          cases f2 with
          | zero => simp at h2
          | succ f2' =>
              show findAllF (f + 1) (c :: rest) = findAllF (f2' + 1) (c :: rest)
              rw [findAllF, findAllF]
              cases hsp : splitMarker (c :: rest) with
              | some p =>
                  obtain ⟨n, r3⟩ := p
                  have hl := splitMarker_length hsp
                  simp only [List.length_cons] at hl h1 h2
                  exact congrArg (n :: ·) (ih f2' r3 (by omega) (by omega))
              | none =>
                  simp only [List.length_cons] at h1 h2
                  exact ih f2' rest (by omega) (by omega)

theorem subMF_congr (g : Nat → Nat) : ∀ (f1 f2 : Nat) (cs : List Char),
    cs.length ≤ f1 → cs.length ≤ f2 → subMF g f1 cs = subMF g f2 cs := by
  intro f1
  induction f1 with
  | zero =>
      intro f2 cs h1 _
      have : cs = [] := List.length_eq_zero.mp (Nat.le_zero.mp h1)
      subst this
      rw [subMF_nil, subMF_nil]
  | succ f ih =>
      intro f2 cs h1 h2
      cases cs with
      | nil => rw [subMF_nil, subMF_nil]
      | cons c rest =>
          cases f2 with
          | zero => simp at h2
          | succ f2' =>
              show subMF g (f + 1) (c :: rest) = subMF g (f2' + 1) (c :: rest)
              rw [subMF, subMF]
              cases hsp : splitMarker (c :: rest) with
              | some p =>
                  obtain ⟨n, r3⟩ := p
                  have hl := splitMarker_length hsp
                  simp only [List.length_cons] at hl h1 h2
                  exact congrArg (fun x => '[' :: (digitsOf (g n) ++ ']' :: x))
                    (ih f2' r3 (by omega) (by omega))
              | none =>
                  simp only [List.length_cons] at h1 h2
                  exact congrArg (c :: ·) (ih f2' rest (by omega) (by omega))

theorem findAll_cons_some {c : Char} {rest : List Char} {n : Nat} {r3 : List Char}
    (h : splitMarker (c :: rest) = some (n, r3)) :
    findAll (c :: rest) = n :: findAll r3 := by
  rw [findAll]
  show findAllF (rest.length + 1) (c :: rest) = n :: findAll r3
  rw [findAllF, h]
  have hl := splitMarker_length h
  simp only [List.length_cons] at hl
  show n :: findAllF rest.length r3 = n :: findAll r3
  exact congrArg (n :: ·) (findAllF_congr rest.length r3.length r3 (by omega) le_rfl)

theorem findAll_cons_none {c : Char} {rest : List Char}
    (h : splitMarker (c :: rest) = none) :
    findAll (c :: rest) = findAll rest := by
  rw [findAll]
  show findAllF (rest.length + 1) (c :: rest) = findAll rest
  rw [findAllF, h]
  show findAllF rest.length rest = findAll rest
  rfl

theorem subM_cons_some (g : Nat → Nat) {c : Char} {rest : List Char} {n : Nat}
    {r3 : List Char} (h : splitMarker (c :: rest) = some (n, r3)) :
    subM g (c :: rest) = '[' :: (digitsOf (g n) ++ ']' :: subM g r3) := by
  rw [subM]
  show subMF g (rest.length + 1) (c :: rest) = _
  rw [subMF, h]
  have hl := splitMarker_length h
  simp only [List.length_cons] at hl
  show '[' :: (digitsOf (g n) ++ ']' :: subMF g rest.length r3) = _
  exact congrArg (fun x => '[' :: (digitsOf (g n) ++ ']' :: x))
    (subMF_congr g rest.length r3.length r3 (by omega) le_rfl)

theorem subM_cons_none (g : Nat → Nat) {c : Char} {rest : List Char}
    (h : splitMarker (c :: rest) = none) :
    subM g (c :: rest) = c :: subM g rest := by
  rw [subM]
  show subMF g (rest.length + 1) (c :: rest) = _
  rw [subMF, h]
  show c :: subMF g rest.length rest = _
  rfl

theorem subM_nil (g : Nat → Nat) : subM g [] = [] := rfl

theorem isDigit_ne_lb {c : Char} (h : c.isDigit = true) : c ≠ '[' := by
  intro hc
  subst hc
  simp [Char.isDigit] at h

/-- Substitution passes a digit prefix through unchanged: a digit cannot
open a marker match. -/
theorem subM_digits (g : Nat → Nat) :
    ∀ (ds cs : List Char), (∀ c ∈ ds, c.isDigit = true) →
      subM g (ds ++ cs) = ds ++ subM g cs := by
  intro ds
  induction ds with
  | nil => intro cs _; simp
  | cons d t ih =>
      intro cs hall
      have hd : d.isDigit = true := hall d (by simp)
      have hne : d ≠ '[' := isDigit_ne_lb hd
      rw [List.cons_append, subM_cons_none g (splitMarker_none_of_ne _ hne)]
      rw [ih cs (fun c hc => hall c (by simp [hc]))]
      rfl

theorem dropWhile_head_false {p : Char → Bool} :
    ∀ (l : List Char) (x : Char) (t : List Char), l.dropWhile p = x :: t → p x = false := by
  intro l
  induction l with
  | nil => intro x t h; exact absurd h (by simp)
  | cons a l' ih =>
      intro x t h
      rw [List.dropWhile_cons] at h
      by_cases ha : p a = true
      · rw [if_pos ha] at h
        exact ih x t h
      · rw [if_neg ha] at h
        have : a = x := (List.cons.injEq _ _ _ _ ▸ h).1
        subst this
        simpa using ha

/-- If a marker match fails at a position, it still fails there after the
substitution rewrote the (strictly later) markers: the digit run and the
character that broke the match are unchanged. -/
theorem splitMarker_subM_none (g : Nat → Nat) {c : Char} {rest : List Char}
    (h : splitMarker (c :: rest) = none) :
    splitMarker (c :: subM g rest) = none := by
  by_cases hc : c = '['
  · subst hc
    have hsplit : rest.takeWhile Char.isDigit ++ rest.dropWhile Char.isDigit = rest :=
      List.takeWhile_append_dropWhile Char.isDigit rest
    have hds : ∀ x ∈ rest.takeWhile Char.isDigit, Char.isDigit x = true :=
      fun x hx => List.mem_takeWhile_imp hx
    have hsub : subM g rest =
        rest.takeWhile Char.isDigit ++ subM g (rest.dropWhile Char.isDigit) := by
      conv_lhs => rw [← hsplit]
      exact subM_digits g _ _ hds
    rw [splitMarker, if_pos rfl] at h
    cases hr2 : rest.dropWhile Char.isDigit with
    | nil =>
        rw [hsub, hr2, subM_nil, List.append_nil]
        rw [splitMarker, if_pos rfl]
        rw [List.takeWhile_eq_self_iff.mpr hds, List.dropWhile_eq_nil_iff.mpr hds]
        by_cases hd0 : rest.takeWhile Char.isDigit = []
        · rw [if_pos hd0]
        · rw [if_neg hd0]
          simp
    | cons x t =>
        have hx : Char.isDigit x = false := dropWhile_head_false rest x t hr2
        cases hsp2 : splitMarker (x :: t) with
        | some p =>
            obtain ⟨m, r3'⟩ := p
            have hxlb : x = '[' := splitMarker_some_head hsp2
            rw [hsub, hr2, subM_cons_some g hsp2]
            have htw := takeWhile_all_append (p := Char.isDigit)
              (rest.takeWhile Char.isDigit) '[' (digitsOf (g m) ++ ']' :: subM g r3')
              hds (by decide)
            rw [splitMarker, if_pos rfl, htw.1, htw.2]
            by_cases hd0 : rest.takeWhile Char.isDigit = []
            · rw [if_pos hd0]
            · rw [if_neg hd0]
              simp
        | none =>
            rw [hsub, hr2, subM_cons_none g hsp2]
            have htw := takeWhile_all_append (p := Char.isDigit)
              (rest.takeWhile Char.isDigit) x (subM g t) hds hx
            rw [splitMarker, if_pos rfl, htw.1, htw.2]
            by_cases hd0 : rest.takeWhile Char.isDigit = []
            · rw [if_pos hd0]
            · rw [if_neg hd0] at h ⊢
              rw [hr2] at h
              simp only [List.head?_cons] at h ⊢
              by_cases hxr : x = ']'
              · rw [if_pos (by rw [hxr])] at h
                exact Option.noConfusion h
              · rw [if_neg (by simpa using hxr)]
  · rw [splitMarker_none_of_ne _ hc]

/-- Substituting markers and then scanning yields exactly the mapped marker
sequence: `MARKER_RE.sub` rewrites each marker in place, deleting none and
inventing none, and the rewritten text re-scans to the mapped numbers. -/
theorem findAll_subM_aux (g : Nat → Nat) :
    ∀ (fuel : Nat) (cs : List Char), cs.length ≤ fuel →
      findAll (subM g cs) = (findAll cs).map g := by
  intro fuel
  induction fuel with
  | zero =>
      intro cs h
      have : cs = [] := List.length_eq_zero.mp (Nat.le_zero.mp h)
      subst this
      rfl
  | succ f ih =>
      intro cs hlen
      cases cs with
      | nil => rfl
      | cons c rest =>
          cases hsp : splitMarker (c :: rest) with
          | some p =>
              obtain ⟨n, r3⟩ := p
              have hl := splitMarker_length hsp
              simp only [List.length_cons] at hl hlen
              rw [subM_cons_some g hsp]
              rw [findAll_cons_some (splitMarker_render (g n) (subM g r3))]
              rw [findAll_cons_some hsp]
              rw [ih r3 (by omega)]
              rfl
          | none =>
              simp only [List.length_cons] at hlen
              rw [subM_cons_none g hsp]
              rw [findAll_cons_none (splitMarker_subM_none g hsp)]
              rw [findAll_cons_none hsp]
              exact ih rest (by omega)

theorem findAll_subM (g : Nat → Nat) (cs : List Char) :
    findAll (subM g cs) = (findAll cs).map g :=
  findAll_subM_aux g cs.length cs le_rfl

/-- Python `\s` on the ASCII range: `[ \t\n\r\x0b\x0c]`.  (Python's `str`
patterns also match Unicode whitespace; the texts handled by the claims
are ASCII, and nothing below depends on the wider class.) -/
def pySpace (c : Char) : Bool :=
  c = ' ' || c = '\t' || c = '\n' || c = '\r' || c = '\x0b' || c = '\x0c'

/-- One attempted match of `\s*\[\d+\]` at the head of the text, as used by
`sanitize_on_no_sources`: greedy optional whitespace, then a marker.  The
whitespace run is forced (after any shorter run the next char is still
whitespace, not `[`), so the match exists exactly when a marker match
succeeds after `dropWhile`. -/
def tryWsMarker (cs : List Char) : Option (List Char) :=
  match splitMarker (cs.dropWhile pySpace) with
  | some (_, r3) => some r3
  | none => none

theorem tryWsMarker_length {cs r3 : List Char} (h : tryWsMarker cs = some r3) :
    r3.length < cs.length := by
  rw [tryWsMarker] at h
  cases hsp : splitMarker (cs.dropWhile pySpace) with
  | some p =>
      obtain ⟨n, r⟩ := p
      rw [hsp] at h
      have := splitMarker_length hsp
      have hd : (cs.dropWhile pySpace).length ≤ cs.length :=
        (List.dropWhile_sublist pySpace).length_le
      have : r3 = r := by
        simpa using h.symm
      subst this
      omega
  | none => rw [hsp] at h; exact Option.noConfusion h

/-- `re.sub(r"\s*\[\d+\]", "", body)`: left-to-right non-overlapping
removal of each whitespace-plus-marker match (one pass, no fixpoint). -/
def subWsF (fuel : Nat) (cs : List Char) : List Char :=
  match fuel, cs with
  | 0, _ => cs
  | _ + 1, [] => []
  | f + 1, c :: rest =>
    match tryWsMarker (c :: rest) with
    | some r3 => subWsF f r3
    | none => c :: subWsF f rest

/-- Wrapper with sufficient fuel. -/
def subWs (cs : List Char) : List Char := subWsF cs.length cs

theorem subWsF_nil (fuel : Nat) : subWsF fuel [] = [] := by
  cases fuel with
  | zero => rfl
  | succ f => rfl

theorem subWsF_congr : ∀ (f1 f2 : Nat) (cs : List Char),
    cs.length ≤ f1 → cs.length ≤ f2 → subWsF f1 cs = subWsF f2 cs := by
  intro f1
  induction f1 with
  | zero =>
      intro f2 cs h1 _
      have : cs = [] := List.length_eq_zero.mp (Nat.le_zero.mp h1)
      subst this
      rw [subWsF_nil, subWsF_nil]
  | succ f ih =>
      intro f2 cs h1 h2
      cases cs with
      | nil => rw [subWsF_nil, subWsF_nil]
      | cons c rest =>
          cases f2 with
          | zero => simp at h2
          | succ f2' =>
              show subWsF (f + 1) (c :: rest) = subWsF (f2' + 1) (c :: rest)
              rw [subWsF, subWsF]
              cases htm : tryWsMarker (c :: rest) with
              | some r3 =>
                  have hl := tryWsMarker_length htm
                  simp only [List.length_cons] at hl h1 h2
                  exact ih f2' r3 (by omega) (by omega)
              | none =>
                  simp only [List.length_cons] at h1 h2
                  exact congrArg (c :: ·) (ih f2' rest (by omega) (by omega))

theorem subWs_cons_some {c : Char} {rest r3 : List Char}
    (h : tryWsMarker (c :: rest) = some r3) :
    subWs (c :: rest) = subWs r3 := by
  rw [subWs]
  show subWsF (rest.length + 1) (c :: rest) = subWs r3
  rw [subWsF, h]
  have hl := tryWsMarker_length h
  simp only [List.length_cons] at hl
  exact subWsF_congr rest.length r3.length r3 (by omega) le_rfl

theorem subWs_cons_none {c : Char} {rest : List Char}
    (h : tryWsMarker (c :: rest) = none) :
    subWs (c :: rest) = c :: subWs rest := by
  rw [subWs]
  show subWsF (rest.length + 1) (c :: rest) = _
  rw [subWsF, h]
  rfl

/-- Every `[` in the text opens a complete `[digits]` marker (the
well-bracketed texts of the amended claim C7). -/
def wellBF (fuel : Nat) (cs : List Char) : Bool :=
  match fuel, cs with
  | 0, _ => true
  | _ + 1, [] => true
  | f + 1, c :: rest =>
    if c = '[' then
      match splitMarker (c :: rest) with
      | some p => wellBF f p.2
      | none => false
    else wellBF f rest

/-- Wrapper with sufficient fuel. -/
def wellB (cs : List Char) : Bool := wellBF cs.length cs

theorem wellBF_nil (fuel : Nat) : wellBF fuel [] = true := by
  cases fuel with
  | zero => rfl
  | succ f => rfl

theorem wellBF_congr : ∀ (f1 f2 : Nat) (cs : List Char),
    cs.length ≤ f1 → cs.length ≤ f2 → wellBF f1 cs = wellBF f2 cs := by
  intro f1
  induction f1 with
  | zero =>
      intro f2 cs h1 _
      have : cs = [] := List.length_eq_zero.mp (Nat.le_zero.mp h1)
      subst this
      rw [wellBF_nil, wellBF_nil]
  | succ f ih =>
      intro f2 cs h1 h2
      cases cs with
      | nil => rw [wellBF_nil, wellBF_nil]
      | cons c rest =>
          cases f2 with
          | zero => simp at h2
          | succ f2' =>
              show wellBF (f + 1) (c :: rest) = wellBF (f2' + 1) (c :: rest)
              rw [wellBF, wellBF]
              by_cases hc : c = '['
              · rw [if_pos hc, if_pos hc]
                cases hsp : splitMarker (c :: rest) with
                | some p =>
                    have hl := splitMarker_length hsp
                    simp only [List.length_cons] at hl h1 h2
                    exact ih f2' p.2 (by omega) (by omega)
                | none => rfl
              · rw [if_neg hc, if_neg hc]
                simp only [List.length_cons] at h1 h2
                exact ih f2' rest (by omega) (by omega)

theorem wellB_cons_lb {rest : List Char} {p : Nat × List Char}
    (h : splitMarker ('[' :: rest) = some p) :
    wellB ('[' :: rest) = wellB p.2 := by
  rw [wellB]
  show wellBF (rest.length + 1) ('[' :: rest) = wellB p.2
  rw [wellBF, if_pos rfl, h]
  have hl := splitMarker_length h
  simp only [List.length_cons] at hl
  exact wellBF_congr rest.length p.2.length p.2 (by omega) le_rfl

theorem wellB_cons_lb_none {rest : List Char}
    (h : splitMarker ('[' :: rest) = none) :
    wellB ('[' :: rest) = false := by
  rw [wellB]
  show wellBF (rest.length + 1) ('[' :: rest) = false
  rw [wellBF, if_pos rfl, h]

theorem wellB_cons_ne {c : Char} {rest : List Char} (hc : c ≠ '[') :
    wellB (c :: rest) = wellB rest := by
  rw [wellB]
  show wellBF (rest.length + 1) (c :: rest) = wellB rest
  rw [wellBF, if_neg hc]
  rfl

theorem pySpace_lb : pySpace '[' = false := by decide

/-- In a well-bracketed text, a whitespace-then-marker match leaves a
well-bracketed remainder. -/
theorem wellB_dropWhile_marker :
    ∀ (fuel : Nat) (cs : List Char), cs.length ≤ fuel → wellB cs = true →
      ∀ {n : Nat} {r3 : List Char},
        splitMarker (cs.dropWhile pySpace) = some (n, r3) → wellB r3 = true := by
  intro fuel
  induction fuel with
  | zero =>
      intro cs h1 _ n r3 hsp
      have : cs = [] := List.length_eq_zero.mp (Nat.le_zero.mp h1)
      subst this
      rw [show ([] : List Char).dropWhile pySpace = [] from rfl, splitMarker] at hsp
      exact Option.noConfusion hsp
  | succ f ih =>
      intro cs h1 hwb n r3 hsp
      cases cs with
      | nil =>
          rw [show ([] : List Char).dropWhile pySpace = [] from rfl, splitMarker] at hsp
          exact Option.noConfusion hsp
      | cons c rest =>
          simp only [List.length_cons] at h1
          by_cases hs : pySpace c = true
          · rw [List.dropWhile_cons, if_pos hs] at hsp
            have hcne : c ≠ '[' := by
              intro hx; subst hx; rw [pySpace_lb] at hs; exact Bool.noConfusion hs
            rw [wellB_cons_ne hcne] at hwb
            exact ih rest (by omega) hwb hsp
          · rw [List.dropWhile_cons, if_neg hs] at hsp
            have hclb : c = '[' := splitMarker_some_head hsp
            subst hclb
            rw [wellB_cons_lb hsp] at hwb
            exact hwb

/-- In a well-bracketed text, the one-pass `\s*\[\d+\]` removal leaves no
`[` at all. -/
theorem wellB_subWs_no_lb :
    ∀ (fuel : Nat) (cs : List Char), cs.length ≤ fuel → wellB cs = true →
      '[' ∉ subWs cs := by
  intro fuel
  induction fuel with
  | zero =>
      intro cs h1 _
      have : cs = [] := List.length_eq_zero.mp (Nat.le_zero.mp h1)
      subst this
      simp [subWs, subWsF]
  | succ f ih =>
      intro cs h1 hwb
      cases cs with
      | nil => simp [subWs, subWsF]
      | cons c rest =>
          simp only [List.length_cons] at h1
          cases htm : tryWsMarker (c :: rest) with
          | some r3 =>
              rw [subWs_cons_some htm]
              rw [tryWsMarker] at htm
              cases hsp : splitMarker ((c :: rest).dropWhile pySpace) with
              | some p =>
                  obtain ⟨n, r⟩ := p
                  rw [hsp] at htm
                  have hr : r = r3 := by simpa using htm
                  rw [hr] at hsp
                  have hwb3 : wellB r3 = true :=
                    wellB_dropWhile_marker (f + 1) (c :: rest) (by simp; omega) hwb hsp
                  have hl : r3.length < rest.length + 1 := by
                    have h5 := splitMarker_length hsp
                    have h6 : ((c :: rest).dropWhile pySpace).length ≤ rest.length + 1 := by
                      have := (List.dropWhile_sublist pySpace (l := c :: rest)).length_le
                      simpa using this
                    omega
                  exact ih r3 (by omega) hwb3
              | none => rw [hsp] at htm; exact Option.noConfusion htm
          | none =>
              rw [subWs_cons_none htm]
              intro hmem
              rcases List.mem_cons.mp hmem with hx | hx
              · subst hx
                rw [tryWsMarker] at htm
                have hdw : (('[' : Char) :: rest).dropWhile pySpace = '[' :: rest := by
                  rw [List.dropWhile_cons, if_neg (by rw [pySpace_lb]; simp)]
                rw [hdw] at htm
                cases hsp : splitMarker ('[' :: rest) with
                | some p => rw [hsp] at htm; exact Option.noConfusion htm
                | none => rw [wellB_cons_lb_none hsp] at hwb; exact Bool.noConfusion hwb
              · have hcne : c ≠ '[' := by
                  intro hceq
                  subst hceq
                  rw [tryWsMarker] at htm
                  have hdw : (('[' : Char) :: rest).dropWhile pySpace = '[' :: rest := by
                    rw [List.dropWhile_cons, if_neg (by rw [pySpace_lb]; simp)]
                  rw [hdw] at htm
                  cases hsp : splitMarker ('[' :: rest) with
                  | some p => rw [hsp] at htm; exact Option.noConfusion htm
                  | none => rw [wellB_cons_lb_none hsp] at hwb; exact Bool.noConfusion hwb
                rw [wellB_cons_ne hcne] at hwb
                exact ih rest (by omega) hwb hx

/-- A text without `[` contains no marker. -/
theorem findAll_eq_nil_of_no_lb :
    ∀ (fuel : Nat) (cs : List Char), cs.length ≤ fuel → '[' ∉ cs → findAll cs = [] := by
  intro fuel
  induction fuel with
  | zero =>
      intro cs h1 _
      have : cs = [] := List.length_eq_zero.mp (Nat.le_zero.mp h1)
      subst this
      rfl
  | succ f ih =>
      intro cs h1 hn
      cases cs with
      | nil => rfl
      | cons c rest =>
          simp only [List.length_cons] at h1
          have hcne : c ≠ '[' := fun hx => hn (hx ▸ List.mem_cons_self c rest)
          rw [findAll_cons_none (splitMarker_none_of_ne rest hcne)]
          exact ih rest (by omega) (fun hx => hn (List.mem_cons_of_mem c hx))

/-- Case-insensitive ASCII word check: `cs` begins with the (lowercase)
word `w`, as `re.IGNORECASE` matches the literal. -/
def hasWordCI (w : List Char) (cs : List Char) : Bool :=
  match w, cs with
  | [], _ => true
  | _ :: _, [] => false
  | a :: w', c :: cs' => (c.toLower = a) && hasWordCI w' cs'

/-- The `s?:` tail of `Sources?:`: a colon, or an `s`/`S` then a colon. -/
def sOptColon (u : List Char) : Bool :=
  match u with
  | ':' :: _ => true
  | c :: ':' :: _ => c.toLower = 's'
  | _ => false

/-- Does `re.compile(r"\n+#+?\s*Sources?:.*\Z", I|S)` match starting at
this position?  A match needs: one or more newlines (the `#` must follow
the newlines directly, so the full newline run is consumed), at least one
`#` (the whole `#` run, since `\s*` cannot absorb `#`), any whitespace,
then `Source`/`Sources` and a colon; `.*\Z` then always succeeds. -/
def sec1MatchAt (cs : List Char) : Bool :=
  match cs with
  | '\n' :: _ =>
    let r1 := cs.dropWhile (· = '\n')
    let hs := r1.takeWhile (· = '#')
    let t := (r1.dropWhile (· = '#')).dropWhile pySpace
    decide (hs ≠ []) && hasWordCI "source".toList t && sOptColon (t.drop 6)
  | _ => false

/-- `_strip_model_sources_section` (postprocess.py lines 6-8): delete from
the first position where the pattern matches to the end of the text (the
match runs to `\Z`, so the result is the prefix before the match). -/
def stripSec1 : List Char → List Char
  | [] => []
  | c :: rest => if sec1MatchAt (c :: rest) then [] else c :: stripSec1 rest

/-- Does `re.compile(r"\n+#{0,2}\s*(Sources|References)\s*:?.*$", I|S)`
match starting at this position?  As above, but the `#` run may be empty
and at most two long, and the word is a full `sources`/`references`
(the trailing `\s*:?.*$` always succeeds). -/
def sec2MatchAt (cs : List Char) : Bool :=
  match cs with
  | '\n' :: _ =>
    let r1 := cs.dropWhile (· = '\n')
    let hs := r1.takeWhile (· = '#')
    let t := (r1.dropWhile (· = '#')).dropWhile pySpace
    decide (hs.length ≤ 2) &&
      (hasWordCI "sources".toList t || hasWordCI "references".toList t)
  | _ => false

/-- The trailing-section removal of `sanitize_on_no_sources` (postprocess.py
lines 49-54): the text before the first match position. -/
def stripSec2 : List Char → List Char
  | [] => []
  | c :: rest => if sec2MatchAt (c :: rest) then [] else c :: stripSec2 rest

/-- A `sources` entry of the reconciler: the citation number `n` plus the
payload fields carried verbatim through `{**s, "n": i}`, represented by a
single `label`. -/
structure SrcDoc where
  n : Nat
  label : String
deriving Repr, DecidableEq

/-- `by_n = {s.get("n"): s for s in sources}` followed by `by_n.get(k)`:
with duplicate `n`s the later entry wins, hence the reversed search. -/
def byN (srcs : List SrcDoc) (k : Nat) : Option SrcDoc :=
  (srcs.reverse).find? (fun s => s.n == k)

/-- `_renumber` (postprocess.py lines 30-33): a marker found in the
first-use order is rewritten to its rank + 1; any other marker number is
kept (unreachable for markers scanned from the same body). -/
def renum (order : List Nat) (old : Nat) : Nat :=
  match order.findIdx? (· == old) with
  | some i => i + 1
  | none => old

/-- The `new_sources` loop (postprocess.py lines 22-27): enumerate the
first-use order from 1; keep and renumber the entries that exist. -/
def newSourcesGo (srcs : List SrcDoc) (i : Nat) : List Nat → List SrcDoc
  | [] => []
  | oldN :: t =>
    match byN srcs oldN with
    | some s => { s with n := i } :: newSourcesGo srcs (i + 1) t
    | none => newSourcesGo srcs (i + 1) t

/-- `rebuild_sources_in_marker_order(body_md, sources)` (postprocess.py
lines 10-36): strip a model-authored Sources section, collect the markers
in first-use order, renumber every marker, and rebuild the source list. -/
def rebuildSourcesInMarkerOrder (body : List Char) (srcs : List SrcDoc) :
    List Char × List SrcDoc :=
  let b := stripSec1 body
  let order := firstDedup (findAll b)
  (subM (renum order) b, newSourcesGo srcs 1 order)

/-- `sanitize_on_no_sources(body_md, sources)` (postprocess.py lines
38-56): with a non-empty source list, a no-op; otherwise one
whitespace-plus-marker removal pass and a trailing-section strip. -/
def sanitizeOnNoSources (body : List Char) (srcs : List SrcDoc) :
    List Char × List SrcDoc :=
  if srcs ≠ [] then (body, srcs)
  else (stripSec2 (subWs body), [])

/-- `stripSec2` only ever returns a prefix, so it introduces no `[`. -/
theorem stripSec2_no_lb {cs : List Char} (h : '[' ∉ cs) : '[' ∉ stripSec2 cs := by
  induction cs with
  | nil => simp [stripSec2]
  | cons c rest ih =>
      rw [stripSec2]
      by_cases hm : sec2MatchAt (c :: rest) = true
      · rw [if_pos hm]; simp
      · rw [if_neg hm]
        intro hx
        rcases List.mem_cons.mp hx with hx | hx
        · exact h (hx ▸ List.mem_cons_self c rest)
        · exact ih (fun hy => h (List.mem_cons_of_mem c hy)) hx

/-- Claim C7 — counterexample.  The single left-to-right removal pass can
expose a marker it never matched: on `"[1[2]]"` (no grounding sources) the
pass removes only `[2]`, leaving `"[1]"`, which still contains the marker
`[1]`; so the output is not marker-free. -/
theorem c7_no_grounding_counterexample :
    sanitizeOnNoSources ("[1[2]]".toList) [] = ("[1]".toList, []) ∧
    findAll ("[1]".toList) ≠ [] := by
  exact ⟨by decide, by decide⟩

/-- Claim C7 (amended): with an empty grounding-source list, the
reconciler always returns an empty source list, and it removes every
`[n]` marker (together with immediately preceding whitespace, then a
trailing Sources/References section) provided every `[` in the input
opens a complete `[digits]` marker; with nested or stray brackets a
single removal pass may leave marker-shaped text behind. -/
theorem c7_no_grounding_amended :
    (∀ body : List Char, (sanitizeOnNoSources body []).2 = []) ∧
    (∀ body : List Char, wellB body = true →
      findAll (sanitizeOnNoSources body []).1 = []) ∧
    sanitizeOnNoSources ("a [1]".toList) [] = ("a".toList, []) := by
  refine ⟨?_, ?_, by decide⟩
  · intro body
    simp [sanitizeOnNoSources]
  · intro body hwb
    have h1 : '[' ∉ subWs body := wellB_subWs_no_lb body.length body le_rfl hwb
    have h2 : '[' ∉ stripSec2 (subWs body) := stripSec2_no_lb h1
    have h3 : (sanitizeOnNoSources body []).1 = stripSec2 (subWs body) := by
      simp [sanitizeOnNoSources]
    rw [h3]
    exact findAll_eq_nil_of_no_lb (stripSec2 (subWs body)).length _ le_rfl h2

/-- Claim C7 — witness: the amended theorem applied to the well-bracketed
text `"a [1] b"`. -/
theorem c7_no_grounding_amended_witness :
    (sanitizeOnNoSources ("a [1] b".toList) []).2 = [] ∧
    findAll (sanitizeOnNoSources ("a [1] b".toList) []).1 = [] :=
  ⟨c7_no_grounding_amended.1 ("a [1] b".toList),
   c7_no_grounding_amended.2.1 ("a [1] b".toList) (by decide)⟩

/-- Claim C4 — counterexample.  In `"[7] [2]"` with grounding sources
numbered `{2}`, the marker `[7]` has no corresponding source, yet the
reconciler rewrites it to `[1]` (its first-use rank): `order` collects all
markers, matched or not, so unmatched markers are renumbered rather than
left as literal text.  The surviving source keeps the number 2. -/
theorem c4_unmatched_counterexample :
    7 ∈ findAll (stripSec1 ("[7] [2]".toList)) ∧
    rebuildSourcesInMarkerOrder ("[7] [2]".toList) [⟨2, "S2"⟩] =
      ("[1] [2]".toList, [⟨2, "S2"⟩]) ∧
    findAll ("[1] [2]".toList) = [1, 2] := by
  exact ⟨by decide, by decide, by decide⟩

/-- Claim C4 (amended): for every text and source list, a marker with no
corresponding grounding source is never deleted, but it is renumbered
along with all other markers: the output text's marker sequence is exactly
the input's (after section-stripping), mapped through first-use-rank
renumbering — so an unmatched marker keeps its number only when that
number already equals its first-use rank. -/
theorem c4_unmatched_amended (body : List Char) (srcs : List SrcDoc) :
    findAll (rebuildSourcesInMarkerOrder body srcs).1 =
      (findAll (stripSec1 body)).map
        (renum (firstDedup (findAll (stripSec1 body)))) ∧
    (findAll (rebuildSourcesInMarkerOrder body srcs).1).length =
      (findAll (stripSec1 body)).length := by
  have h := findAll_subM (renum (firstDedup (findAll (stripSec1 body)))) (stripSec1 body)
  constructor
  · exact h
  · have h2 : (rebuildSourcesInMarkerOrder body srcs).1 =
        subM (renum (firstDedup (findAll (stripSec1 body)))) (stripSec1 body) := rfl
    rw [h2, h]
    simp

/-- Claim C3 — counterexample.  `"claim [5] and [2] and [5] again"` with
grounding sources `{2 ↦ S2, 5 ↦ S5}` does produce the claimed text, but
the first-use order is 5 before 2 (marker `[5]` appears first), so the
rebuilt source list is `[S5 ↦ 1, S2 ↦ 2]`, not the claimed
`[S2 ↦ 1, S5 ↦ 2]`. -/
theorem c3_renumber_counterexample :
    rebuildSourcesInMarkerOrder ("claim [5] and [2] and [5] again".toList)
        [⟨2, "S2"⟩, ⟨5, "S5"⟩] =
      ("claim [1] and [2] and [1] again".toList, [⟨1, "S5"⟩, ⟨2, "S2"⟩]) ∧
    ([⟨1, "S5"⟩, ⟨2, "S2"⟩] : List SrcDoc) ≠ [⟨1, "S2"⟩, ⟨2, "S5"⟩] := by
  exact ⟨by decide, by decide⟩

/-- Claim C3 (amended): reconciling `"claim [5] and [2] and [5] again"`
against sources `{2 ↦ S2, 5 ↦ S5}` yields
`"claim [1] and [2] and [1] again"` with the source list
`[S5 ↦ 1, S2 ↦ 2]`, reordered by first use (5 before 2). -/
theorem c3_renumber_amended :
    rebuildSourcesInMarkerOrder ("claim [5] and [2] and [5] again".toList)
        [⟨2, "S2"⟩, ⟨5, "S5"⟩] =
      ("claim [1] and [2] and [1] again".toList, [⟨1, "S5"⟩, ⟨2, "S2"⟩]) := by
  decide

/-- Gregorian leap year, as `datetime` validates days. -/
def isLeapYear (y : Nat) : Bool :=
  (y % 4 == 0 && y % 100 != 0) || y % 400 == 0

/-- Days in a month, as `datetime` validates the day field. -/
def daysInMonth (y m : Nat) : Nat :=
  if m = 2 then (if isLeapYear y then 29 else 28)
  else if m = 4 ∨ m = 6 ∨ m = 9 ∨ m = 11 then 30 else 31

/-- `datetime.fromisoformat` on the date-only form `YYYY-MM-DD` used by
the corpus and the filters, returned as the order-preserving key
`y * 10000 + m * 100 + d` (datetime comparison is lexicographic on
(y, m, d), which this key mirrors).  Time-suffixed ISO forms are not
modelled.  An invalid year (0), month, or calendar day raises in Python
and `_parse_iso_or_none` turns that into `None`: here `none`. -/
def parseIsoS (s : String) : Option Nat :=
  match s.toList with
  | [y1, y2, y3, y4, h1, m1, m2, h2, a1, a2] =>
    if y1.isDigit ∧ y2.isDigit ∧ y3.isDigit ∧ y4.isDigit ∧ h1 = '-' ∧
       m1.isDigit ∧ m2.isDigit ∧ h2 = '-' ∧ a1.isDigit ∧ a2.isDigit then
      let y := ((charVal y1 * 10 + charVal y2) * 10 + charVal y3) * 10 + charVal y4
      let mo := charVal m1 * 10 + charVal m2
      let da := charVal a1 * 10 + charVal a2
      if 1 ≤ y ∧ 1 ≤ mo ∧ mo ≤ 12 ∧ 1 ≤ da ∧ da ≤ daysInMonth y mo then
        some (y * 10000 + mo * 100 + da)
      else none
    else none
  | _ => none

/-- `_parse_iso_or_none(s)` (retriever.py 24-28 and generator.py 17-21):
`None` for a falsy or unparseable value. -/
def parseIsoOrNone (o : Option String) : Option Nat :=
  match o with
  | none => none
  | some s => if s = "" then none else parseIsoS s

/-- The date block of `_apply_filters` (retriever.py lines 140-150),
factored as a named predicate on the record's date: with an active bound,
an unparseable record date fails; otherwise each parseable bound is
enforced (`if df and d < df`, `if dt_ and d > dt_`). -/
def dateOkR (from_s to_s : String) (cdate : Option String) : Bool :=
  if from_s ≠ "" ∨ to_s ≠ "" then
    match parseIsoOrNone cdate with
    | none => false
    | some d =>
      (match (if from_s ≠ "" then parseIsoS from_s else none) with
       | some df => !(decide (d < df))
       | none => true) &&
      (match (if to_s ≠ "" then parseIsoS to_s else none) with
       | some dt => !(decide (dt < d))
       | none => true)
  else true

/-- The normalized filter dict of `_normalize_filters` (retriever.py
95-117): singular keys, nested date flattened to two strings, `""`/`[]`
meaning the constraint is absent.  Unknown extra keys are not modelled. -/
structure Filters where
  county : List String
  topic : List String
  dateFrom : String
  dateTo : String
deriving Repr, DecidableEq

/-- Python truthiness of the normalized filter dict (after
`_normalize_filters` strips empty values). -/
def Filters.isActive (f : Filters) : Bool :=
  !f.county.isEmpty || !f.topic.isEmpty || f.dateFrom ≠ "" || f.dateTo ≠ ""

/-- Python `str.strip()` on the ASCII whitespace class (the wider Unicode
class is not exercised by these metadata fields). -/
def pyStrip (s : String) : String :=
  ⟨((s.data.dropWhile pySpace).reverse.dropWhile pySpace).reverse⟩

/-- Python `str.lower()` character-wise (ASCII; the metadata fields the
filters compare are ASCII). -/
def lowerStr (s : String) : String :=
  ⟨s.data.map Char.toLower⟩

/-- Loop body of `_apply_filters` (retriever.py lines 132-153) for one
record: county (case-insensitive membership), topics (case-insensitive
intersection), and the strict date window. -/
def chunkOkR (f : Filters) (c : Chunk) : Bool :=
  let counties := (f.county.map (fun s => lowerStr (pyStrip s))).filter (fun s => s ≠ "")
  let topics := (f.topic.map (fun s => lowerStr (pyStrip s))).filter (fun s => s ≠ "")
  let countyOk := if counties.isEmpty then true
                  else counties.contains (lowerStr (c.county.getD ""))
  let topicsOk := if topics.isEmpty then true
                  else ((c.topics.getD []).map lowerStr).any
                    (fun t => topics.contains t)
  countyOk && topicsOk && dateOkR f.dateFrom f.dateTo c.date

/-- `_apply_filters(mask_idx, filters)` over the corpus records: identity
for a falsy filter dict, else the indices whose record passes. -/
def applyFilters (chunks : List Chunk) (filters : Option Filters)
    (idxs : List Nat) : List Nat :=
  match filters with
  | none => idxs
  | some f =>
    if f.isActive then idxs.filter (fun i => chunkOkR f (chunks.getD i default))
    else idxs

/-- The `{date_from, date_to, counties, topics}` dict `_norm_rf` produces
in generator.py (lines 60-79); `none` models an absent/`None` value. -/
structure GenFilters where
  counties : Option (List String)
  topics : Option (List String)
  date_from : Option String
  date_to : Option String
deriving Repr, DecidableEq

/-- Python truthiness of an optional list. -/
def pyTruthyL (o : Option (List String)) : Bool :=
  match o with
  | none => false
  | some l => !l.isEmpty

/-- Python truthiness of an optional string. -/
def pyTruthyS (o : Option String) : Bool :=
  match o with
  | none => false
  | some s => s ≠ ""

/-- `_ctx_matches_filters(c, f)` (generator.py lines 23-53): sequential
early-return checks for counties (case-sensitive, stripped record county),
topics (any overlap, case-sensitive), and the strict date window. -/
def ctxMatchesFilters (c : OutHit) (f : GenFilters) : Bool :=
  if pyTruthyL f.counties ∧
      (pyStrip (c.county.getD "") = "" ∨
        ¬ (f.counties.getD []).contains (pyStrip (c.county.getD ""))) then false
  else if pyTruthyL f.topics ∧
      ¬ (f.topics.getD []).any (fun t => c.topics.contains t) then false
  else if pyTruthyS f.date_from ∨ pyTruthyS f.date_to then
    match parseIsoOrNone c.date with
    | none => false
    | some d =>
      if (match (if pyTruthyS f.date_from then parseIsoOrNone f.date_from else none) with
          | some d1 => decide (d < d1)
          | none => false) then false
      else if (match (if pyTruthyS f.date_to then parseIsoOrNone f.date_to else none) with
          | some d2 => decide (d2 < d)
          | none => false) then false
      else true
  else true

theorem parseIsoS_empty : parseIsoS "" = none := rfl

theorem parseIsoS_ne_empty {s : String} {k : Nat} (h : parseIsoS s = some k) :
    s ≠ "" := by
  intro hx
  subst hx
  rw [parseIsoS_empty] at h
  exact Option.noConfusion h

/-- Common date-window chain: the generator's early-return form and the
retriever's accumulated-`ok` form agree for arbitrary parsed bounds. -/
theorem dateChain_eq (p1 p2 : Option Nat) (d : Nat) :
    (if (match p1 with | some d1 => decide (d < d1) | none => false) = true then false
     else if (match p2 with | some d2 => decide (d2 < d) | none => false) = true then false
     else true) =
    ((match p1 with | some df => !(decide (d < df)) | none => true) &&
     (match p2 with | some dt => !(decide (dt < d)) | none => true)) := by
  cases p1 with
  | none =>
      cases p2 with
      | none => simp
      | some d2 => by_cases h2 : d2 < d <;> simp [h2]
  | some d1 =>
      cases p2 with
      | none => by_cases h1 : d < d1 <;> simp [h1]
      | some d2 =>
          by_cases h1 : d < d1 <;> by_cases h2 : d2 < d <;> simp [h1, h2]

/-- Claim C8: (i) with at least one date bound set, a record without a
parseable date fails the date filter; (ii) with parseable bounds, a dated
record passes iff `date_from ≤ date ≤ date_to`, each missing bound being
unconstrained, so a record dated exactly `date_from` passes; (iii) with no
bound the date filter passes unconditionally; (iv) the generator's
re-filter `_ctx_matches_filters` computes the same date window when its
county/topic constraints are absent. -/
theorem c8_date_filter :
    (∀ (fs ts : String) (d : Option String), (fs ≠ "" ∨ ts ≠ "") →
      parseIsoOrNone d = none → dateOkR fs ts d = false) ∧
    (∀ (fs ts : String) (d : Option String) (dv kf kt : Nat),
      parseIsoOrNone d = some dv → parseIsoS fs = some kf → parseIsoS ts = some kt →
      (dateOkR fs ts d = true ↔ (kf ≤ dv ∧ dv ≤ kt))) ∧
    (∀ (fs : String) (d : Option String) (dv kf : Nat),
      parseIsoOrNone d = some dv → parseIsoS fs = some kf →
      (dateOkR fs "" d = true ↔ kf ≤ dv)) ∧
    (∀ (ts : String) (d : Option String) (dv kt : Nat),
      parseIsoOrNone d = some dv → parseIsoS ts = some kt →
      (dateOkR "" ts d = true ↔ dv ≤ kt)) ∧
    (∀ d : Option String, dateOkR "" "" d = true) ∧
    (∀ (c : OutHit) (dfo dto : Option String),
      ctxMatchesFilters c ⟨none, none, dfo, dto⟩ =
        dateOkR (dfo.getD "") (dto.getD "") c.date) := by
  refine ⟨?_, ?_, ?_, ?_, ?_, ?_⟩
  · intro fs ts d hb hpd
    rw [dateOkR, if_pos hb, hpd]
  · intro fs ts d dv kf kt hpd hpf hpt
    have hfne : fs ≠ "" := parseIsoS_ne_empty hpf
    rw [dateOkR, if_pos (Or.inl hfne), hpd, if_pos hfne, if_pos (parseIsoS_ne_empty hpt),
      hpf, hpt]
    simp [Nat.not_lt]
  · intro fs d dv kf hpd hpf
    have hfne : fs ≠ "" := parseIsoS_ne_empty hpf
    rw [dateOkR, if_pos (Or.inl hfne), hpd, if_pos hfne, hpf]
    have : (if ("" : String) ≠ "" then parseIsoS "" else none) = none := by simp
    rw [this]
    simp [Nat.not_lt]
  · intro ts d dv kt hpd hpt
    have htne : ts ≠ "" := parseIsoS_ne_empty hpt
    rw [dateOkR, if_pos (Or.inr htne), hpd, if_pos htne, hpt]
    have : (if ("" : String) ≠ "" then parseIsoS "" else none) = none := by simp
    rw [this]
    simp [Nat.not_lt]
  · intro d
    rw [dateOkR, if_neg (by simp)]
  · intro c dfo dto
    have hcond : (pyTruthyS dfo = true ∨ pyTruthyS dto = true) ↔
        ((dfo.getD "") ≠ "" ∨ (dto.getD "") ≠ "") := by
      cases dfo <;> cases dto <;> simp [pyTruthyS]
    have hp1 : (if pyTruthyS dfo = true then parseIsoOrNone dfo else none) =
        (if (dfo.getD "") ≠ "" then parseIsoS (dfo.getD "") else none) := by
      cases dfo with
      | none => simp [pyTruthyS]
      | some s =>
          by_cases hs : s = ""
          · subst hs; simp [pyTruthyS]
          · simp [pyTruthyS, parseIsoOrNone, hs]
    have hp2 : (if pyTruthyS dto = true then parseIsoOrNone dto else none) =
        (if (dto.getD "") ≠ "" then parseIsoS (dto.getD "") else none) := by
      cases dto with
      | none => simp [pyTruthyS]
      | some s =>
          by_cases hs : s = ""
          · subst hs; simp [pyTruthyS]
          · simp [pyTruthyS, parseIsoOrNone, hs]
    rw [ctxMatchesFilters]
    rw [if_neg (by simp [pyTruthyL])]
    rw [if_neg (by simp [pyTruthyL])]
    by_cases hc : pyTruthyS dfo = true ∨ pyTruthyS dto = true
    · rw [if_pos hc, dateOkR, if_pos (hcond.mp hc)]
      cases hpd : parseIsoOrNone c.date with
      | none => rfl
      | some d =>
          rw [hp1, hp2]
          exact dateChain_eq _ _ d
    · rw [if_neg hc, dateOkR, if_neg (fun hx => hc (hcond.mpr hx))]

/-- Claim C8 — witness: a record with no date is excluded by
`date_from = "2025-01-01"`, and a record dated exactly `2025-01-01` is
included by that same bound. -/
theorem c8_date_filter_witness :
    dateOkR "2025-01-01" "" none = false ∧
    dateOkR "2025-01-01" "" (some "2025-01-01") = true :=
  ⟨c8_date_filter.1 "2025-01-01" "" none (Or.inl (by decide)) rfl,
   (c8_date_filter.2.2.1 "2025-01-01" (some "2025-01-01") 20250101 20250101
      (by decide) (by decide)).mpr (by decide)⟩

/-- The on-disk corpus as `_load_index` (retriever.py lines 57-86) sees it:
parsed contents of `chunks.jsonl` and `embeddings.npy` when present
(vectors as integer-scaled lists; only their count matters here).  The
optional `index.faiss` accelerator is modelled as absent. -/
structure CorpusFiles where
  chunksFile : Option (List Chunk)
  vecsFile : Option (List (List Int))
deriving Repr, DecidableEq

/-- The installed module-level corpus state (`_CHUNKS`, `_VECS`). -/
structure Corpus where
  chunks : List Chunk
  vecs : List (List Int)
deriving Repr, DecidableEq

/-- `_load_index(base_dir)`: raises `FileNotFoundError` when either
required file is missing, and otherwise installs both arrays.  The source
performs no consistency check between the vector count and the metadata
record count. -/
def loadIndex (fs : CorpusFiles) : Except String Corpus :=
  match fs.chunksFile, fs.vecsFile with
  | some cs, some vs => Except.ok ⟨cs, vs⟩
  | _, _ => Except.error "Missing index files"

/-- Claim C9 — counterexample.  With 2 metadata records but 3 vectors (a
count mismatch), `_load_index` succeeds and installs the mismatched
corpus; the claim says the load fails and installs nothing. -/
theorem c9_load_counterexample :
    loadIndex ⟨some [default, default], some [[1], [2], [3]]⟩ =
      Except.ok ⟨[default, default], [[1], [2], [3]]⟩ ∧
    ([default, default] : List Chunk).length ≠ ([[1], [2], [3]] : List (List Int)).length := by
  exact ⟨rfl, by decide⟩

/-- Claim C9 (amended): the load fails exactly when the required metadata
file or vector file is absent; no vector/record count check is performed
at load time, so a count-mismatched corpus is installed as-is.  (The count
invariant is enforced by the out-of-scope ingest script instead.) -/
theorem c9_load_amended (fs : CorpusFiles) :
    ((∃ c, loadIndex fs = Except.ok c) ↔
      (fs.chunksFile ≠ none ∧ fs.vecsFile ≠ none)) ∧
    (∀ (cs : List Chunk) (vs : List (List Int)),
      fs.chunksFile = some cs → fs.vecsFile = some vs →
        loadIndex fs = Except.ok ⟨cs, vs⟩) := by
  obtain ⟨cf, vf⟩ := fs
  constructor
  · cases cf with
    | none =>
        cases vf <;> simp [loadIndex]
    | some cs =>
        cases vf with
        | none => simp [loadIndex]
        | some vs => simp [loadIndex]
  · intro cs vs hc hv
    cases hc
    cases hv
    rfl

/-- Claim C9 — witness: the amended theorem at a concrete one-record
corpus with both files present. -/
theorem c9_load_amended_witness :
    ((∃ c, loadIndex ⟨some [default], some [[7]]⟩ = Except.ok c) ↔
      ((⟨some [default], some [[7]]⟩ : CorpusFiles).chunksFile ≠ none ∧
       (⟨some [default], some [[7]]⟩ : CorpusFiles).vecsFile ≠ none)) ∧
    loadIndex ⟨some [default], some [[7]]⟩ = Except.ok ⟨[default], [[7]]⟩ :=
  ⟨(c9_load_amended ⟨some [default], some [[7]]⟩).1,
   (c9_load_amended ⟨some [default], some [[7]]⟩).2 [default] [[7]] rfl rfl⟩

/-- `retrieve(query, kb_path, k, filters)` (retriever.py lines 167-219)
after the corpus is loaded and the query embedded.  The similarity engine
(faiss over the full corpus, or `_topk_numpy` over the candidate subset)
is a parameter `engine : candidate indices → request_k → ranked indices`,
because the tie order of numpy's `argpartition`/`argsort(quicksort)` is
not specified; the optional faiss accelerator is modelled as absent, and
`filters` stands for the `_normalize_filters` output.  Line 183 evaluates
`len(getattr(filt_idx, "__array_interface__", None) and filt_idx or [])`
when the candidate set is non-empty: `bool(filt_idx)` raises `ValueError`
for two or more candidates, and a single candidate with corpus index 0 is
falsy, collapsing to `len([]) == 0` and an empty result.  The empty
candidate set itself short-circuits on `filt_idx.size == 0` and returns
`[]` before that expression is reached. -/
def retrieveM (chunks : List Chunk) (engine : List Nat → Nat → List Nat)
    (k : Nat) (filters : Option Filters) : Except String (List OutHit) :=
  let allIdx := List.range chunks.length
  let active := match filters with | none => false | some f => f.isActive
  let filtIdx := if active then applyFilters chunks filters allIdx else allIdx
  if active && filtIdx.isEmpty then Except.ok []
  else if active && decide (2 ≤ filtIdx.length) then
    Except.error "ValueError: ambiguous array truth value"
  else if active && (filtIdx == [0]) then Except.ok []
  else
    let poolSize := if active then filtIdx.length else chunks.length
    let requestK := min k poolSize
    let idxs := engine filtIdx requestK
    Except.ok ((dedupeAdjacentByDoc
      (idxs.map (fun i => mkOutHit (chunks.getD i default)))).take k)

/-- Claim C1: whenever a filter is supplied (normalizes to an active
constraint) and the candidate set after filtering is empty, `retrieve`
returns the empty list immediately — for every corpus, similarity engine
and `k`; it never falls back to the unfiltered corpus. -/
theorem c1_strict_empty (chunks : List Chunk) (engine : List Nat → Nat → List Nat)
    (k : Nat) (f : Filters) (hact : f.isActive = true)
    (hempty : applyFilters chunks (some f) (List.range chunks.length) = []) :
    retrieveM chunks engine k (some f) = Except.ok [] := by
  simp [retrieveM, hact, hempty]

/-- Claim C1 — witness: a one-record corpus and a county filter matching
nothing; the filtered candidate set is empty and `retrieve` returns `[]`. -/
theorem c1_strict_empty_witness :
    retrieveM [⟨some "d1", some "t1", none, none, some "Haywood", some ["housing"], some "x"⟩]
      (fun idxs n => idxs.take n) 5
      (some ⟨["Buncombe"], [], "", ""⟩) = Except.ok [] :=
  c1_strict_empty _ _ 5 _ (by decide) (by decide)
